import Mathlib

set_option maxRecDepth 100000

/-!
Verification of the fuel-finder sync/reconciliation pipeline.

Shallow embedding of the TypeScript sources:
  convex/fuelPrices.ts        (addPrice, batchAddPrices)
  convex/stations.ts          (upsertStation, batchUpsertStations, getStationIdsBatch)
  convex/sync.ts              (syncStations, syncPrices, failSync, completeSync)
  scripts/sync-local.ts       (syncStations/syncPrices fetch loops, fuel-type mapping)
  scripts/cleanup-bad-prices.ts (price parsing and 50..300 band, batched id lookup)
  src/lib/postcode-utils.ts   (normalizePostcode)
  src/lib/fuel-finder-client.ts (401 clear-token-and-retry logic)

JS strings are modelled as lists of code points (List Nat) where case and
whitespace semantics matter, and as Lean String elsewhere.  JS numbers are
modelled as Rat, timestamps as Int.  Exceptions are modelled as Except.
-/

-- ===========================================================================
-- DEFINITIONS
-- ===========================================================================

-- ---------------------------------------------------------------------------
-- Paginated fetcher (sync.ts syncStations / sync-local.ts syncStations).
-- The upstream is modelled as the finite list of batches it would serve for
-- batch numbers 1, 2, ...; past the end of the list the server returns [].
-- fetchGo returns (the batch numbers requested, the accumulated records).
-- ---------------------------------------------------------------------------

def fetchGo (n : Nat) : List (List α) → List Nat × List α
  | [] => ([n], [])
  | b :: rest =>
    if b.length = 0 then ([n], [])
    else if b.length < 500 then ([n], b)
    else
      let r := fetchGo (n + 1) rest
      (n :: r.1, b ++ r.2)

/-- The fetch loop as run by the sync entry points: batch numbers start at 1. -/
def fetchAllBatches (batches : List (List α)) : List Nat × List α :=
  fetchGo 1 batches

/-- Upstream scenario [500, 500, 287] from the spec. -/
def demoBatches1 : List (List Nat) :=
  [List.replicate 500 0, List.replicate 500 1, List.replicate 287 2]

/-- Upstream scenario [500, 0] from the spec. -/
def demoBatches2 : List (List Nat) :=
  [List.replicate 500 0, []]

-- ---------------------------------------------------------------------------
-- Fuel-type mapping (scripts/sync-local.ts syncPrices, lines 279-289).
-- ---------------------------------------------------------------------------

def validFuelTypes : List String := ["E5", "E10", "Diesel", "Super Diesel", "B10", "HVO"]

/-- The fuel-type normalization of sync-local.ts: three sequential rewrites of
the raw external name followed by the validity check; None models the record
being skipped. -/
def mapFuelType (raw : String) : Option String :=
  let ft1 := if raw = "B7_STANDARD" ∨ raw = "B7P" then "Diesel" else raw
  let ft2 := if raw = "B7_PREMIUM" ∨ raw = "B7S" then "Super Diesel" else ft1
  let ft3 := if raw = "E5_PREMIUM" then "E5" else ft2
  if ft3 ∈ validFuelTypes then some ft3 else none

/-- External vocabulary aliases handled by the mapping. -/
def fuelAliases : List String := ["B7_STANDARD", "B7P", "B7_PREMIUM", "B7S", "E5_PREMIUM"]

-- ---------------------------------------------------------------------------
-- Price parsing (scripts/cleanup-bad-prices.ts syncPrices, lines 690-716):
--   parseFloat of the price string with the leading apostrophe-and-zeros
--   prefix removed (empty result defaults to the digit zero); skip if NaN or
--   non-positive; Math.round; skip if below 50 or above 300.
-- ---------------------------------------------------------------------------

def digitsToNat (ds : List Char) : Nat :=
  ds.foldl (fun acc c => acc * 10 + (c.toNat - 48)) 0

/-- Model of the decimal-literal fragment of parseFloat: optional sign, integer
digits, optional dot and fraction digits; trailing junk is ignored; none models
NaN (no digit was parsed). -/
def parseJsFloat (cs : List Char) : Option ℚ :=
  let su : ℚ × List Char :=
    match cs with
    | c :: rest => if c = '-' then (-1, rest) else if c = '+' then (1, rest) else (1, cs)
    | [] => (1, [])
  let intDs := su.2.takeWhile Char.isDigit
  let rest := su.2.dropWhile Char.isDigit
  let fracDs :=
    match rest with
    | c :: r => if c = '.' then r.takeWhile Char.isDigit else []
    | [] => []
  if intDs.isEmpty ∧ fracDs.isEmpty then none
  else some (su.1 * ((digitsToNat intDs : ℚ) + (digitsToNat fracDs : ℚ) / (10 : ℚ) ^ fracDs.length))

/-- JS Math.round: round half toward positive infinity. -/
def jsRound (q : ℚ) : Int := Int.floor (q + 1 / 2)

/-- The replace with pattern: caret, optional apostrophe, zero or more zeros.
Drops one leading apostrophe (code point 39) and then leading zeros. -/
def stripAposZeros (cs : List Char) : List Char :=
  (match cs with
   | c :: rest => if c.toNat = 39 then rest else cs
   | [] => []).dropWhile (fun c => c = '0')

/-- Price normalization of cleanup-bad-prices.ts: strip the prefix (an empty
result falls back to the string 0, mirroring the JS or-default), parse, reject
non-positive or unparsable values, round to integer pence, reject outside the
50..300 band. -/
def parsePrice (s : List Char) : Option Int :=
  let stripped := stripAposZeros s
  match parseJsFloat (if stripped.isEmpty then ['0'] else stripped) with
  | none => none
  | some q =>
    if q ≤ 0 then none
    else
      let finalPrice := jsRound q
      if finalPrice < 50 then none
      else if finalPrice > 300 then none
      else some finalPrice

/-- The spec example input: apostrophe followed by 0126.9000 . -/
def aposInput : List Char := Char.ofNat 39 :: "0126.9000".toList

-- ---------------------------------------------------------------------------
-- Postcode normalization (src/lib/postcode-utils.ts normalizePostcode).
-- Strings are modelled as lists of code points; jsUpperCode is the ASCII
-- fragment of toUpperCase, isWsCode the ASCII fragment of the regex class \s.
-- ---------------------------------------------------------------------------

def isWsCode (n : Nat) : Bool :=
  decide (n = 32 ∨ n = 9 ∨ n = 10 ∨ n = 13 ∨ n = 11 ∨ n = 12)

def jsUpperCode (n : Nat) : Nat :=
  if 97 ≤ n ∧ n ≤ 122 then n - 32 else n

/-- The global whitespace-removing replace: drop every whitespace char. -/
def stripWsCodes (l : List Nat) : List Nat := l.filter (fun c => !isWsCode c)

/-- trim(): remove leading and trailing whitespace. -/
def trimCodes (l : List Nat) : List Nat :=
  ((l.dropWhile isWsCode).reverse.dropWhile isWsCode).reverse

def upperCodes (l : List Nat) : List Nat := l.map jsUpperCode

/-- normalizePostcode from postcode-utils.ts: empty input gives empty output;
if the whitespace-stripped uppercased form has length outside 5..7 return the
trimmed uppercased input; otherwise insert a single space (code 32) before the
last 3 characters. -/
def normalizePostcode (s : List Nat) : List Nat :=
  if s.isEmpty then []
  else if (upperCodes (stripWsCodes s)).length < 5 ∨ 7 < (upperCodes (stripWsCodes s)).length then
    upperCodes (trimCodes s)
  else
    (upperCodes (stripWsCodes s)).take ((upperCodes (stripWsCodes s)).length - 3) ++
      32 :: (upperCodes (stripWsCodes s)).drop ((upperCodes (stripWsCodes s)).length - 3)

/-- The code points of the spec example input wf92wf. -/
def pcDemo : List Nat := [119, 102, 57, 50, 119, 102]

-- ---------------------------------------------------------------------------
-- 401 handling (src/lib/fuel-finder-client.ts search / getAllPrices).
-- statuses is the sequence of HTTP statuses the downstream returns to the
-- successive requests for one logical call; st is the cached token
-- (this.accessToken) when the call starts.  Each request first runs
-- getAccessToken, which returns the cached token or acquires and caches a
-- fresh one, so a token is always held when the response arrives; on a 401
-- with a token held the client clears the cache and re-enters search.
-- The result is the number of HTTP requests issued.
-- ---------------------------------------------------------------------------

def searchRequestCount (st : Option String) : List Nat → Nat
  | [] => 0
  | code :: rest =>
    let cached : Option String := some (st.getD "fresh")
    if code = 401 ∧ cached.isSome then 1 + searchRequestCount none rest
    else 1


-- ---------------------------------------------------------------------------
-- Stations table (convex/stations.ts).  A StationDb is the table contents in
-- creation order together with the next fresh internal id; find? over the
-- creation-ordered list models the by_external_id index query followed by
-- first().  patch overwrites the given fields of the row in place.
-- ---------------------------------------------------------------------------

structure StationData where
  externalId : String
  name : String
  brand : Option String
  addressLine1 : String
  addressLine2 : Option String
  city : String
  county : Option String
  postcode : String
  latitude : ℚ
  longitude : ℚ
  amenities : Option (List String)
deriving DecidableEq

structure StationRow where
  id : Nat
  data : StationData
  lastSyncedAt : Int
deriving DecidableEq

structure StationDb where
  rows : List StationRow
  nextId : Nat
deriving DecidableEq

def findByExternalId (db : StationDb) (e : String) : Option StationRow :=
  db.rows.find? (fun r => r.data.externalId == e)

/-- ctx.db.patch: overwrite the given fields of the row in place. -/
def patchRow (db : StationDb) (i : Nat) (args : StationData) (now : Int) : StationDb :=
  ⟨db.rows.map (fun x => if x.id = i then ⟨x.id, args, now⟩ else x), db.nextId⟩

/-- ctx.db.insert: append a fresh row and return its id. -/
def insertRow (db : StationDb) (args : StationData) (now : Int) : StationDb × Nat :=
  (⟨db.rows ++ [⟨db.nextId, args, now⟩], db.nextId + 1⟩, db.nextId)

/-- upsertStation: patch the existing row for the externalId and return its id,
or insert a new row and return the fresh id. -/
def upsertStation (db : StationDb) (args : StationData) (now : Int) : StationDb × Nat :=
  match findByExternalId db args.externalId with
  | some r => (patchRow db r.id args now, r.id)
  | none => insertRow db args now

/-- The loop body of batchUpsertStations: the upsert logic inlined as in the
source, threading the accumulated ids. -/
def batchStep (now : Int) (acc : StationDb × List Nat) (s : StationData) :
    StationDb × List Nat :=
  match findByExternalId acc.1 s.externalId with
  | some r => (patchRow acc.1 r.id s now, acc.2 ++ [r.id])
  | none =>
    let ins := insertRow acc.1 s now
    (ins.1, acc.2 ++ [ins.2])

/-- batchUpsertStations: the same logic inlined in a loop, with a single now
for the whole batch as in the source. -/
def batchUpsertStations (db : StationDb) (stations : List StationData) (now : Int) :
    StationDb × List Nat :=
  stations.foldl (batchStep now) (db, [])

/-- One call to either station upsert entry point. -/
inductive UpsertCall where
  | one (args : StationData) (now : Int)
  | many (stations : List StationData) (now : Int)

def applyCall (db : StationDb) : UpsertCall → StationDb
  | .one a t => (upsertStation db a t).1
  | .many l t => (batchUpsertStations db l t).1

def runCalls (db : StationDb) : List UpsertCall → StationDb
  | [] => db
  | c :: rest => runCalls (applyCall db c) rest

def upsertStep (db : StationDb) (p : StationData × Int) : StationDb :=
  (upsertStation db p.1 p.2).1

def applyPairs (db : StationDb) (ps : List (StationData × Int)) : StationDb :=
  ps.foldl upsertStep db

/-- The sequence of (args, now) upserts a call list performs, in order. -/
def flattenCalls : List UpsertCall → List (StationData × Int)
  | [] => []
  | .one a t :: r => (a, t) :: flattenCalls r
  | .many l t :: r => l.map (fun s => (s, t)) ++ flattenCalls r

/-- The last upsert in the sequence that targets the given externalId. -/
def lastTouch (e : String) : List (StationData × Int) → Option (StationData × Int)
  | [] => none
  | p :: rest =>
    match lastTouch e rest with
    | some q => some q
    | none => if p.1.externalId = e then some p else none

/-- All stored rows carrying the given externalId. -/
def rowsFor (db : StationDb) (e : String) : List StationRow :=
  db.rows.filter (fun r => r.data.externalId == e)

/-- Well-formedness: externalIds unique, internal ids unique and below nextId. -/
def StationDb.WF (db : StationDb) : Prop :=
  db.rows.Pairwise (fun a b => a.data.externalId ≠ b.data.externalId) ∧
  db.rows.Pairwise (fun a b => a.id ≠ b.id) ∧
  ∀ r ∈ db.rows, r.id < db.nextId

def emptyStationDb : StationDb := ⟨[], 0⟩

/-- Demo station metadata (two versions of the same externalId). -/
def demoStationA : StationData :=
  ⟨"X", "Alpha", none, "1 Road", none, "Leeds", none, "WF9 2WF", 0, 0, none⟩

def demoStationB : StationData :=
  ⟨"X", "Beta", none, "2 Road", none, "York", none, "WF9 2WF", 0, 0, none⟩

def demoCalls : List UpsertCall :=
  [UpsertCall.one demoStationA 5, UpsertCall.one demoStationB 9]

-- ---------------------------------------------------------------------------
-- Station identity resolution (convex/stations.ts getStationIdsBatch and its
-- chunked caller in scripts/cleanup-bad-prices.ts syncPrices).
-- ---------------------------------------------------------------------------

/-- getStationIdsBatch: look up at most the first 500 ids, returning the pairs
(externalId, internal id) for those found. -/
def getStationIdsBatch (db : StationDb) (externalIds : List String) : List (String × Nat) :=
  (externalIds.take 500).filterMap
    (fun e => (findByExternalId db e).map (fun r => (e, r.id)))

/-- slice(i, i + n) walk of the caller: split a list into chunks of size n. -/
def chunked (n : Nat) : List α → List (List α)
  | [] => []
  | x :: xs => (x :: xs.take (n - 1)) :: chunked n (xs.drop (n - 1))
termination_by l => l.length
decreasing_by
  simp only [List.length_drop, List.length_cons]
  omega

/-- The caller loop of cleanup-bad-prices.ts: query chunks of 500 and merge the
results into one map. -/
def resolveStationIds (db : StationDb) (ids : List String) : List (String × Nat) :=
  (chunked 500 ids).foldl (fun m b => m ++ getStationIdsBatch db b) []

-- ---------------------------------------------------------------------------
-- Fuel prices table (convex/fuelPrices.ts).  mostRecentFor models the
-- by_station_fuel_time index query ordered descending followed by first():
-- the matching row with the greatest recordedAt, later insertions winning
-- ties (descending creation time runs last-inserted first).
-- ---------------------------------------------------------------------------

structure PriceObs where
  id : Nat
  stationId : Nat
  fuelType : String
  price : ℚ
  recordedAt : Int
  sourceTimestamp : String
deriving DecidableEq

structure PriceDb where
  rows : List PriceObs
  nextId : Nat
deriving DecidableEq

def mrStep (sid : Nat) (ft : String) (acc : Option PriceObs) (r : PriceObs) : Option PriceObs :=
  if r.stationId = sid ∧ r.fuelType = ft then
    match acc with
    | none => some r
    | some b => if b.recordedAt ≤ r.recordedAt then some r else some b
  else acc

def mostRecentFor (rows : List PriceObs) (sid : Nat) (ft : String) : Option PriceObs :=
  rows.foldl (mrStep sid ft) none

/-- addPrice: insert a new observation recorded now unless an existing most
recent observation has the same price and is at most one hour old, in which
case return the existing id. -/
def addPrice (db : PriceDb) (sid : Nat) (ft : String) (price : ℚ) (now : Int) (ts : String) :
    PriceDb × Nat :=
  match mostRecentFor db.rows sid ft with
  | none => (⟨db.rows ++ [⟨db.nextId, sid, ft, price, now, ts⟩], db.nextId + 1⟩, db.nextId)
  | some ex =>
    if ex.price ≠ price ∨ now - ex.recordedAt > 60 * 60 * 1000 then
      (⟨db.rows ++ [⟨db.nextId, sid, ft, price, now, ts⟩], db.nextId + 1⟩, db.nextId)
    else (db, ex.id)

/-- Demo observation and store for the reconciler. -/
def demoObs : PriceObs := ⟨0, 1, "E10", 126, 1000, "t0"⟩

def demoPriceDb : PriceDb := ⟨[demoObs], 1⟩

structure PriceArgs where
  stationId : Nat
  fuelType : String
  price : ℚ
  sourceTimestamp : String
deriving DecidableEq

/-- The loop body of batchAddPrices: the addPrice logic inlined as in the
source, each iteration taking its own Date.now() (the Int paired with each
argument record). -/
def addStep (acc : PriceDb × List Nat) (it : PriceArgs × Int) : PriceDb × List Nat :=
  match mostRecentFor acc.1.rows it.1.stationId it.1.fuelType with
  | none =>
    (⟨acc.1.rows ++
        [⟨acc.1.nextId, it.1.stationId, it.1.fuelType, it.1.price, it.2,
          it.1.sourceTimestamp⟩],
      acc.1.nextId + 1⟩, acc.2 ++ [acc.1.nextId])
  | some ex =>
    if ex.price ≠ it.1.price ∨ it.2 - ex.recordedAt > 60 * 60 * 1000 then
      (⟨acc.1.rows ++
          [⟨acc.1.nextId, it.1.stationId, it.1.fuelType, it.1.price, it.2,
            it.1.sourceTimestamp⟩],
        acc.1.nextId + 1⟩, acc.2 ++ [acc.1.nextId])
    else (acc.1, acc.2 ++ [ex.id])

/-- batchAddPrices: the inlined reconciliation loop over the argument list. -/
def batchAddPrices (db : PriceDb) (items : List (PriceArgs × Int)) : PriceDb × List Nat :=
  items.foldl addStep (db, [])

-- ---------------------------------------------------------------------------
-- Sync orchestrator (convex/sync.ts syncStations / syncPrices).  Exceptions
-- are modelled as Except: the try body is a computation that either produces
-- the processed counts or an error message; the entry point catches the
-- error, patches the SyncRun to failed (failSync) and returns a plain result
-- record, so the model has no error channel left in its codomain.
-- ---------------------------------------------------------------------------

structure StationsResult where
  success : Bool
  stationsProcessed : Option Nat
  errorMsg : Option String
deriving DecidableEq

structure PricesResult where
  success : Bool
  pricesProcessed : Option Nat
  stationsNotFound : Option Nat
  errorMsg : Option String
deriving DecidableEq

structure SyncRunRec where
  syncType : String
  status : String
  stationsProcessed : Option Nat
  pricesProcessed : Option Nat
  errorMessage : Option String
deriving DecidableEq

def startRun (ty : String) : SyncRunRec := ⟨ty, "started", none, none, none⟩

/-- completeSync: patch the run to completed with the processed counts. -/
def completeRun (run : SyncRunRec) (sp pp : Nat) : SyncRunRec :=
  { run with status := "completed", stationsProcessed := some sp, pricesProcessed := some pp }

/-- failSync: patch the run to failed with the exception message. -/
def failRun (run : SyncRunRec) (msg : String) : SyncRunRec :=
  { run with status := "failed", errorMessage := some msg }

/-- The fetch loop with failure: each page is an HTTP error (Except.error),
a non-array body (ok none, which the code turns into the invalid-format
exception), or a batch of records. -/
def fetchLoopE (errMsg : String) : List (Except String (Option (List α))) → Except String (List α)
  | [] => .ok []
  | p :: rest =>
    match p with
    | .error e => .error e
    | .ok none => .error errMsg
    | .ok (some b) =>
      if b.length = 0 then .ok []
      else if b.length < 500 then .ok b
      else
        match fetchLoopE errMsg rest with
        | .error e => .error e
        | .ok out => .ok (b ++ out)

def stationsShapeErr : String := "Invalid API response format - no stations array found"

def pricesShapeErr : String := "Invalid API response format - no prices array found"

structure StationsEnv where
  tokenResult : Except String String
  stationPages : List (Except String (Option (List Nat)))

/-- The try body of syncStations: token, fetch all batches, upsert them all
(stationsProcessed counts every fetched record). -/
def syncStationsBody (env : StationsEnv) : Except String Nat :=
  match env.tokenResult with
  | .error e => .error e
  | .ok _ =>
    match fetchLoopE stationsShapeErr env.stationPages with
    | .error e => .error e
    | .ok raw => .ok raw.length

def syncStationsModel (env : StationsEnv) : StationsResult × SyncRunRec :=
  match syncStationsBody env with
  | .ok n => (⟨true, some n, none⟩, completeRun (startRun "stations") n 0)
  | .error m => (⟨false, none, some m⟩, failRun (startRun "stations") m)

/-- One fetched price record: the fields the processing loop reads, each
optional to model missing/falsy JS values. -/
structure RawPrice where
  stationExt : Option String
  fuelRaw : Option String
  priceVal : Option ℚ
deriving DecidableEq

/-- The fuel-type rewrites of convex/sync.ts syncPrices (this variant knows
B7P/B7S and the long-form names only). -/
def mapFuelTypeConvex (raw : String) : String :=
  let f1 := if raw = "B7P" ∨ raw = "Diesel (B7)" then "Diesel" else raw
  if raw = "B7S" ∨ raw = "Super Diesel (B7)" then "Super Diesel" else f1

/-- The per-record processing loop of syncPrices: skip falsy fields, count a
missing station, skip unknown fuel types, otherwise count the price as
processed.  Returns (pricesProcessed, stationsNotFound). -/
def processPriceRecords (known : List String) (records : List RawPrice) : Nat × Nat :=
  records.foldl
    (fun acc pu =>
      match pu.stationExt, pu.fuelRaw, pu.priceVal with
      | some sidExt, some ftRaw, some pv =>
        if sidExt = "" ∨ ftRaw = "" ∨ pv = 0 then acc
        else if sidExt ∈ known then
          if mapFuelTypeConvex ftRaw ∈ validFuelTypes then (acc.1 + 1, acc.2) else acc
        else (acc.1, acc.2 + 1)
      | _, _, _ => acc)
    (0, 0)

structure PricesEnv where
  tokenResult : Except String String
  pricePages : List (Except String (Option (List RawPrice)))
  knownStations : List String

def syncPricesBody (env : PricesEnv) : Except String (Nat × Nat) :=
  match env.tokenResult with
  | .error e => .error e
  | .ok _ =>
    match fetchLoopE pricesShapeErr env.pricePages with
    | .error e => .error e
    | .ok raw => .ok (processPriceRecords env.knownStations raw)

/-- An environment whose token acquisition throws. -/
def demoFailEnv : StationsEnv := ⟨.error "boom", []⟩

def syncPricesModel (env : PricesEnv) : PricesResult × SyncRunRec :=
  match syncPricesBody env with
  | .ok c => (⟨true, some c.1, some c.2, none⟩, completeRun (startRun "prices") 0 c.1)
  | .error m => (⟨false, none, none, some m⟩, failRun (startRun "prices") m)

-- ===========================================================================
-- THEOREMS
-- ===========================================================================

/-- Claim C3: the paginated fetcher requests batch numbers in increasing order
starting at 1 and stops exactly at the first batch that is empty or has
strictly fewer than 500 records (continuing while a batch has exactly 500);
the output is the order-preserving concatenation of the fetched batches.
In particular [500, 500, 287] costs exactly 3 requests and [500, 0] exactly 2. -/
theorem fetch_pagination_terminates :
    (∀ (batches : List (List Nat)), (∀ b ∈ batches, b.length ≤ 500) →
      fetchAllBatches batches =
        (List.range' 1 ((batches.takeWhile (fun b => b.length == 500)).length + 1),
         (batches.take ((batches.takeWhile (fun b => b.length == 500)).length + 1)).flatten)) ∧
    (fetchAllBatches demoBatches1).1 = [1, 2, 3] ∧
    (fetchAllBatches demoBatches1).2 = demoBatches1.flatten ∧
    (fetchAllBatches demoBatches2).1 = [1, 2] ∧
    (fetchAllBatches demoBatches2).2 = List.replicate 500 0 := by
  refine ⟨?_, by rfl, by rfl, by rfl, by rfl⟩
  intro batches hb
  unfold fetchAllBatches
  suffices h : ∀ (bs : List (List Nat)) (n : Nat), (∀ b ∈ bs, b.length ≤ 500) →
      fetchGo n bs =
        (List.range' n ((bs.takeWhile (fun b => b.length == 500)).length + 1),
         (bs.take ((bs.takeWhile (fun b => b.length == 500)).length + 1)).flatten) by
    exact h batches 1 hb
  intro bs
  induction bs with
  | nil => intro n _; simp [fetchGo]
  | cons b rest ih =>
    intro n hball
    have hb500 : b.length ≤ 500 := hball b (by simp)
    by_cases hfull : b.length = 500
    · have hne : ¬ b.length = 0 := by omega
      have hnlt : ¬ b.length < 500 := by omega
      have ihr := ih (n + 1) (fun x hx => hball x (by simp [hx]))
      simp only [fetchGo, if_neg hne, if_neg hnlt, ihr]
      have htw : (b :: rest).takeWhile (fun b => b.length == 500) =
          b :: rest.takeWhile (fun b => b.length == 500) := by
        simp [List.takeWhile_cons, hfull]
      rw [htw]
      simp [List.range'_succ, List.take_succ_cons]
    · have htw : (b :: rest).takeWhile (fun b => b.length == 500) = [] := by
        simp [List.takeWhile_cons, hfull]
      rw [htw]
      by_cases hz : b.length = 0
      · have hbnil : b = [] := List.length_eq_zero.mp hz
        simp [fetchGo, hz, hbnil, List.range']
      · have hlt : b.length < 500 := by omega
        simp [fetchGo, hz, hlt, List.range']

/-- Witness for the universally quantified part of Claim C3, at the concrete
upstream scenario [500, 0]. -/
theorem fetch_pagination_terminates_witness :
    fetchAllBatches demoBatches2 =
      (List.range' 1 ((demoBatches2.takeWhile (fun b => b.length == 500)).length + 1),
       (demoBatches2.take ((demoBatches2.takeWhile (fun b => b.length == 500)).length + 1)).flatten) :=
  fetch_pagination_terminates.1 demoBatches2 (by decide)

/-- Claim C6: the fuel-type mapping sends B7_STANDARD and B7P to Diesel,
B7_PREMIUM and B7S to Super Diesel, E5_PREMIUM to E5, fixes the six canonical
fuel types, and rejects everything else. -/
theorem mapFuelType_table :
    mapFuelType "B7_STANDARD" = some "Diesel" ∧
    mapFuelType "B7P" = some "Diesel" ∧
    mapFuelType "B7_PREMIUM" = some "Super Diesel" ∧
    mapFuelType "B7S" = some "Super Diesel" ∧
    mapFuelType "E5_PREMIUM" = some "E5" ∧
    (∀ t ∈ validFuelTypes, mapFuelType t = some t) ∧
    mapFuelType "XYZ" = none ∧
    (∀ raw, raw ∉ fuelAliases → raw ∉ validFuelTypes → mapFuelType raw = none) := by
  refine ⟨by decide, by decide, by decide, by decide, by decide, by decide, by decide, ?_⟩
  intro raw h1 h2
  simp only [fuelAliases, List.mem_cons, List.not_mem_nil, or_false, not_or] at h1
  obtain ⟨n1, n2, n3, n4, n5⟩ := h1
  simp only [mapFuelType, if_neg (by tauto : ¬(raw = "B7_STANDARD" ∨ raw = "B7P")),
    if_neg (by tauto : ¬(raw = "B7_PREMIUM" ∨ raw = "B7S")), if_neg n5, if_neg h2]

/-- Witness for the hypothesis-bearing parts of Claim C6: the canonical type
E10 is fixed and the unknown vocabulary item QQQ is rejected. -/
theorem mapFuelType_table_witness :
    mapFuelType "E10" = some "E10" ∧ mapFuelType "QQQ" = none :=
  ⟨mapFuelType_table.2.2.2.2.2.1 "E10" (by decide),
   mapFuelType_table.2.2.2.2.2.2.2 "QQQ" (by decide) (by decide)⟩

-- ---------------------------------------------------------------------------
-- Price parsing theorems (Claim C2)
-- ---------------------------------------------------------------------------

/-- Evaluation of the price normalization at the spec input (apostrophe then
0126.9000): the prefix strip leaves 126.9000, parseFloat yields 126.9, and
Math.round yields 127, inside the 50..300 band. -/
theorem parsePrice_apos_eval : parsePrice aposInput = some 127 := by
  have h2 : parseJsFloat ("126.9000".toList) = some (1 * ((126 : ℚ) + 9000 / 10 ^ 4)) := rfl
  have h3 : jsRound ((1269 : ℚ) / 10) = 127 := by
    norm_num [jsRound, Int.floor_eq_iff]
  simp only [parsePrice]
  rw [show (if (stripAposZeros aposInput).isEmpty then ['0'] else stripAposZeros aposInput) =
      "126.9000".toList from by decide]
  rw [h2]
  norm_num [h3]

/-- Evaluation at 0049.0000: parses to 49, below the band, rejected. -/
theorem parsePrice_low_eval : parsePrice ("0049.0000".toList) = none := by
  have h2 : parseJsFloat ("49.0000".toList) = some (1 * ((49 : ℚ) + 0 / 10 ^ 4)) := rfl
  have h3 : jsRound ((49 : ℚ)) = 49 := by
    norm_num [jsRound, Int.floor_eq_iff]
  simp only [parsePrice]
  rw [show (if (stripAposZeros ("0049.0000".toList)).isEmpty then ['0']
      else stripAposZeros ("0049.0000".toList)) = "49.0000".toList from by decide]
  rw [h2]
  norm_num [h3]

/-- Evaluation at 0301.0000: parses to 301, above the band, rejected. -/
theorem parsePrice_high_eval : parsePrice ("0301.0000".toList) = none := by
  have h2 : parseJsFloat ("301.0000".toList) = some (1 * ((301 : ℚ) + 0 / 10 ^ 4)) := rfl
  have h3 : jsRound ((301 : ℚ)) = 301 := by
    norm_num [jsRound, Int.floor_eq_iff]
  simp only [parsePrice]
  rw [show (if (stripAposZeros ("0301.0000".toList)).isEmpty then ['0']
      else stripAposZeros ("0301.0000".toList)) = "301.0000".toList from by decide]
  rw [h2]
  norm_num [h3]

/-- Claim C2 counterexample: on the spec input the code stores 127, not 126,
because Math.round rounds 126.9 up to the nearest integer. -/
theorem parsePrice_round_counterexample :
    parsePrice aposInput = some 127 ∧ parsePrice aposInput ≠ some 126 :=
  ⟨parsePrice_apos_eval, by rw [parsePrice_apos_eval]; decide⟩

/-- Claim C2 (amended): stripping the apostrophe-and-zeros prefix and rounding
to the nearest integer pence stores 127 for the spec input; candidates below
50 or above 300 pence (and unparsable or non-positive ones) are rejected, so
every stored price lies in the 50..300 band. -/
theorem parsePrice_band :
    parsePrice aposInput = some 127 ∧
    parsePrice ("0049.0000".toList) = none ∧
    parsePrice ("0301.0000".toList) = none ∧
    (∀ s p, parsePrice s = some p → 50 ≤ p ∧ p ≤ 300) := by
  refine ⟨parsePrice_apos_eval, parsePrice_low_eval, parsePrice_high_eval, ?_⟩
  intro s p h
  simp only [parsePrice] at h
  rcases hF : parseJsFloat (if (stripAposZeros s).isEmpty then ['0'] else stripAposZeros s)
    with _ | q
  · rw [hF] at h
    cases h
  · rw [hF] at h
    simp only at h
    split_ifs at h with h1 h2 h3
    cases h
    exact ⟨by omega, by omega⟩

/-- Witness for the band part of the amended Claim C2, at the spec input. -/
theorem parsePrice_band_witness : 50 ≤ (127 : Int) ∧ (127 : Int) ≤ 300 :=
  parsePrice_band.2.2.2 aposInput 127 parsePrice_apos_eval

-- ---------------------------------------------------------------------------
-- Postcode helper lemmas
-- ---------------------------------------------------------------------------

theorem jsUpperCode_idem (n : Nat) : jsUpperCode (jsUpperCode n) = jsUpperCode n := by
  unfold jsUpperCode
  split_ifs <;> omega

theorem isWsCode_upper (n : Nat) : isWsCode (jsUpperCode n) = isWsCode n := by
  unfold jsUpperCode
  split_ifs with h
  · unfold isWsCode
    exact decide_eq_decide.mpr (by omega)
  · rfl

theorem mem_strip_not_ws {l : List Nat} {x : Nat} (hx : x ∈ stripWsCodes l) :
    isWsCode x = false := by
  unfold stripWsCodes at hx
  simpa using List.of_mem_filter hx

theorem mem_clean_not_ws {s : List Nat} {x : Nat} (hx : x ∈ upperCodes (stripWsCodes s)) :
    isWsCode x = false := by
  unfold upperCodes at hx
  obtain ⟨z, hz, rfl⟩ := List.mem_map.mp hx
  rw [isWsCode_upper]
  exact mem_strip_not_ws hz

theorem upper_idem (l : List Nat) : upperCodes (upperCodes l) = upperCodes l := by
  induction l with
  | nil => rfl
  | cons a t ih =>
    simp only [upperCodes, List.map_cons] at *
    rw [jsUpperCode_idem, ih]

theorem strip_upper_comm (l : List Nat) :
    stripWsCodes (upperCodes l) = upperCodes (stripWsCodes l) := by
  induction l with
  | nil => rfl
  | cons a t ih =>
    simp only [stripWsCodes, upperCodes, List.map_cons, List.filter_cons, isWsCode_upper a] at *
    cases h : isWsCode a <;> simp [h, ih]

theorem reverse_upper_comm (l : List Nat) : (upperCodes l).reverse = upperCodes l.reverse := by
  simp [upperCodes]

theorem dropWhile_upper_comm (l : List Nat) :
    (upperCodes l).dropWhile isWsCode = upperCodes (l.dropWhile isWsCode) := by
  induction l with
  | nil => rfl
  | cons a t ih =>
    simp only [upperCodes, List.map_cons, List.dropWhile_cons, isWsCode_upper a] at *
    cases h : isWsCode a <;> simp [h, ih, upperCodes]

theorem trim_upper_comm (l : List Nat) : trimCodes (upperCodes l) = upperCodes (trimCodes l) := by
  unfold trimCodes
  rw [dropWhile_upper_comm, reverse_upper_comm, dropWhile_upper_comm, reverse_upper_comm]

theorem strip_dropWhile (l : List Nat) :
    stripWsCodes (l.dropWhile isWsCode) = stripWsCodes l := by
  induction l with
  | nil => rfl
  | cons a t ih =>
    cases h : isWsCode a
    · simp [List.dropWhile_cons, h]
    · simp only [List.dropWhile_cons, h, if_true]
      rw [ih]
      simp [stripWsCodes, List.filter_cons, h]

theorem strip_reverse (l : List Nat) : stripWsCodes l.reverse = (stripWsCodes l).reverse := by
  simp [stripWsCodes, List.filter_reverse]

theorem strip_trim (l : List Nat) : stripWsCodes (trimCodes l) = stripWsCodes l := by
  unfold trimCodes
  rw [strip_reverse, strip_dropWhile, strip_reverse, List.reverse_reverse, strip_dropWhile]

theorem dropWhile_twice (p : Nat → Bool) (l : List Nat) :
    (l.dropWhile p).dropWhile p = l.dropWhile p := by
  induction l with
  | nil => rfl
  | cons a t ih =>
    cases h : p a
    · simp [List.dropWhile_cons, h]
    · simp [List.dropWhile_cons, h, ih]

theorem dropWhile_head_false {p : Nat → Bool} (l : List Nat) :
    ∀ {a : Nat} {t : List Nat}, l.dropWhile p = a :: t → p a = false := by
  induction l with
  | nil => intro a t h; cases h
  | cons b u ih =>
    intro a t h
    rw [List.dropWhile_cons] at h
    by_cases hb : p b = true
    · rw [if_pos hb] at h
      exact ih h
    · rw [if_neg hb] at h
      cases h
      simpa using hb

theorem dropWhile_append_last {q : Nat → Bool} {a : Nat} (h : q a = false) :
    ∀ u : List Nat, ∃ w, (u ++ [a]).dropWhile q = w ++ [a] := by
  intro u
  induction u with
  | nil => exact ⟨[], by simp [List.dropWhile_cons, h]⟩
  | cons b u ih =>
    by_cases hb : q b = true
    · obtain ⟨w, hw⟩ := ih
      exact ⟨w, by simp [List.dropWhile_cons, hb, hw]⟩
    · exact ⟨b :: u, by simp [List.dropWhile_cons, hb]⟩

theorem trim_twice (l : List Nat) : trimCodes (trimCodes l) = trimCodes l := by
  have key : (trimCodes l).dropWhile isWsCode = trimCodes l := by
    unfold trimCodes
    cases hy : l.dropWhile isWsCode with
    | nil => simp
    | cons a t =>
      have ha : isWsCode a = false := dropWhile_head_false l hy
      obtain ⟨w, hw⟩ := dropWhile_append_last ha t.reverse
      rw [show (a :: t).reverse = t.reverse ++ [a] from by simp, hw]
      simp [List.reverse_append, List.dropWhile_cons, ha]
  have key2 : (trimCodes l).reverse.dropWhile isWsCode = (trimCodes l).reverse := by
    unfold trimCodes
    rw [List.reverse_reverse, dropWhile_twice]
  conv_lhs => rw [trimCodes]
  rw [key, key2, List.reverse_reverse]

theorem postcode_out_of_range (s : List Nat) (hs : s ≠ [])
    (hlen : (upperCodes (stripWsCodes s)).length < 5 ∨ 7 < (upperCodes (stripWsCodes s)).length) :
    normalizePostcode s = upperCodes (trimCodes s) := by
  have hne : ¬(s.isEmpty = true) := by
    simp only [List.isEmpty_iff]
    exact hs
  unfold normalizePostcode
  rw [if_neg hne, if_pos hlen]

theorem postcode_in_range (s : List Nat) (hs : s ≠ [])
    (h5 : 5 ≤ (upperCodes (stripWsCodes s)).length) (h7 : (upperCodes (stripWsCodes s)).length ≤ 7) :
    normalizePostcode s =
      (upperCodes (stripWsCodes s)).take ((upperCodes (stripWsCodes s)).length - 3) ++
        32 :: (upperCodes (stripWsCodes s)).drop ((upperCodes (stripWsCodes s)).length - 3) := by
  have hne : ¬(s.isEmpty = true) := by
    simp only [List.isEmpty_iff]
    exact hs
  unfold normalizePostcode
  rw [if_neg hne, if_neg (by omega)]

theorem postcode_idem (s : List Nat) :
    normalizePostcode (normalizePostcode s) = normalizePostcode s := by
  by_cases hs : s = []
  · subst hs; rfl
  · by_cases hlen : (upperCodes (stripWsCodes s)).length < 5 ∨ 7 < (upperCodes (stripWsCodes s)).length
    · rw [postcode_out_of_range s hs hlen]
      have hcy : upperCodes (stripWsCodes (upperCodes (trimCodes s))) = upperCodes (stripWsCodes s) := by
        rw [strip_upper_comm, upper_idem, strip_trim]
      by_cases hy : upperCodes (trimCodes s) = []
      · rw [hy]; rfl
      · rw [postcode_out_of_range _ hy (by rw [hcy]; exact hlen)]
        rw [trim_upper_comm, upper_idem, trim_twice]
    · push_neg at hlen
      obtain ⟨h5, h7⟩ := hlen
      rw [postcode_in_range s hs h5 h7]
      set c := upperCodes (stripWsCodes s) with hc
      set k := c.length - 3 with hk
      have hyne : c.take k ++ 32 :: c.drop k ≠ [] := by
        intro hcon
        have := congrArg List.length hcon
        simp [List.length_append] at this
      have hstrip : stripWsCodes (c.take k ++ 32 :: c.drop k) = c := by
        unfold stripWsCodes
        rw [List.filter_append, List.filter_cons]
        have h32 : (!isWsCode 32) = false := by decide
        rw [h32]
        simp only [Bool.false_eq_true, if_false]
        rw [List.filter_eq_self.mpr, List.filter_eq_self.mpr, List.take_append_drop]
        · intro a ha
          simp [mem_clean_not_ws (hc ▸ List.drop_subset k c ha)]
        · intro a ha
          simp [mem_clean_not_ws (hc ▸ List.take_subset k c ha)]
      have hcy : upperCodes (stripWsCodes (c.take k ++ 32 :: c.drop k)) = c := by
        rw [hstrip, hc, upper_idem]
      rw [postcode_in_range _ hyne (by rw [hcy]; omega) (by rw [hcy]; omega)]
      rw [hcy, ← hk]

/-- Claim C8: normalizePostcode is pure, total and idempotent: empty input
yields the empty output; when the whitespace-stripped length is outside 5..7
the input is returned trimmed and uppercased; otherwise the last 3 characters
become the inward code joined to the remainder by a single space; and applying
the function to any of its outputs returns that output unchanged. -/
theorem normalizePostcode_spec :
    normalizePostcode [] = [] ∧
    (∀ s : List Nat, s ≠ [] →
       ((upperCodes (stripWsCodes s)).length < 5 ∨ 7 < (upperCodes (stripWsCodes s)).length) →
       normalizePostcode s = upperCodes (trimCodes s)) ∧
    (∀ s : List Nat, s ≠ [] →
       5 ≤ (upperCodes (stripWsCodes s)).length → (upperCodes (stripWsCodes s)).length ≤ 7 →
       normalizePostcode s =
         (upperCodes (stripWsCodes s)).take ((upperCodes (stripWsCodes s)).length - 3) ++
           32 :: (upperCodes (stripWsCodes s)).drop ((upperCodes (stripWsCodes s)).length - 3)) ∧
    (∀ s : List Nat, normalizePostcode (normalizePostcode s) = normalizePostcode s) :=
  ⟨rfl, postcode_out_of_range, postcode_in_range, postcode_idem⟩

/-- Witness for the hypothesis-bearing parts of Claim C8: wf92wf is in the
5..7 band and is normalized by splitting off the last three characters. -/
theorem normalizePostcode_spec_witness :
    normalizePostcode pcDemo =
      (upperCodes (stripWsCodes pcDemo)).take ((upperCodes (stripWsCodes pcDemo)).length - 3) ++
        32 :: (upperCodes (stripWsCodes pcDemo)).drop ((upperCodes (stripWsCodes pcDemo)).length - 3) :=
  normalizePostcode_spec.2.2.1 pcDemo (by decide) (by decide) (by decide)

-- ---------------------------------------------------------------------------
-- 401 retry theorem (Claim C9)
-- ---------------------------------------------------------------------------

/-- Claim C9 evidence: because getAccessToken always leaves a cached token
behind, the 401 guard is always taken, so a downstream that keeps answering
401 is retried once per 401 without bound: k consecutive 401 responses
followed by a 200 cost k + 1 requests; in particular 2 consecutive 401s cost
3 requests, exceeding the claimed maximum of one retry (2 requests). -/
theorem search_retry_unbounded :
    searchRequestCount none [401, 401, 200] = 3 ∧
    2 < searchRequestCount none [401, 401, 200] ∧
    (∀ k, searchRequestCount none (List.replicate k 401 ++ [200]) = k + 1) := by
  refine ⟨by rfl, by decide, ?_⟩
  intro k
  induction k with
  | zero => rfl
  | succ k ih =>
    rw [List.replicate_succ, List.cons_append]
    simp only [searchRequestCount]
    rw [if_pos (by simp), ih]
    omega

-- ---------------------------------------------------------------------------
-- Station identity resolution theorems (Claim C5)
-- ---------------------------------------------------------------------------

theorem chunked_props {α : Type} (n : Nat) (hn : 1 ≤ n) :
    ∀ (N : Nat) (l : List α), l.length ≤ N →
      (∀ c ∈ chunked n l, c.length ≤ n) ∧ (chunked n l).flatten = l := by
  intro N
  induction N with
  | zero =>
    intro l hl
    have hnil : l = [] := List.length_eq_zero.mp (Nat.le_zero.mp hl)
    subst hnil
    exact ⟨by simp [chunked], by simp [chunked]⟩
  | succ N ih =>
    intro l hl
    match l with
    | [] => exact ⟨by simp [chunked], by simp [chunked]⟩
    | x :: xs =>
      have hrec := ih (xs.drop (n - 1)) (by simp only [List.length_drop]; simp at hl; omega)
      constructor
      · intro c hc
        simp only [chunked] at hc
        rcases List.mem_cons.mp hc with h | h
        · subst h
          simp only [List.length_cons, List.length_take]
          omega
        · exact hrec.1 c h
      · simp only [chunked, List.flatten_cons]
        rw [hrec.2, List.cons_append, List.take_append_drop]

theorem foldl_append_flatten {β γ : Type} (f : β → List γ) :
    ∀ (bs : List β) (acc : List γ),
      bs.foldl (fun m b => m ++ f b) acc = acc ++ (bs.map f).flatten := by
  intro bs
  induction bs with
  | nil => intro acc; simp
  | cons b bs ih =>
    intro acc
    simp only [List.foldl_cons, List.map_cons, List.flatten_cons, ih, List.append_assoc]

theorem flatten_map_filterMap {β γ : Type} (g : β → Option γ) :
    ∀ (cs : List (List β)), (cs.map (fun c => c.filterMap g)).flatten = cs.flatten.filterMap g := by
  intro cs
  induction cs with
  | nil => rfl
  | cons c cs ih =>
    simp only [List.map_cons, List.flatten_cons, ih, List.filterMap_append]

theorem resolve_eq_filterMap (db : StationDb) (ids : List String) :
    resolveStationIds db ids =
      ids.filterMap (fun e => (findByExternalId db e).map (fun r => (e, r.id))) := by
  unfold resolveStationIds
  rw [foldl_append_flatten]
  rw [List.nil_append]
  have hch := chunked_props 500 (by omega) ids.length ids (le_refl _)
  have hmap : (chunked 500 ids).map (getStationIdsBatch db) =
      (chunked 500 ids).map
        (fun c => c.filterMap (fun e => (findByExternalId db e).map (fun r => (e, r.id)))) := by
    apply List.map_congr_left
    intro c hc
    unfold getStationIdsBatch
    rw [List.take_of_length_le (hch.1 c hc)]
  rw [hmap, flatten_map_filterMap, hch.2]

/-- Claim C5: the resolver issues its backing-store lookups in chunks of at
most 500 identifiers, and the resulting mapping contains exactly the input
externalIds found in the store, each bound to that station's internal id;
absence from the mapping means the station is unknown. -/
theorem resolveStationIds_spec :
    ∀ (db : StationDb) (ids : List String),
      (∀ c ∈ chunked 500 ids, c.length ≤ 500) ∧
      (∀ e i, (e, i) ∈ resolveStationIds db ids ↔
         e ∈ ids ∧ ∃ r, findByExternalId db e = some r ∧ r.id = i) := by
  intro db ids
  refine ⟨fun c hc => (chunked_props 500 (by omega) ids.length ids (le_refl _)).1 c hc, ?_⟩
  intro e i
  rw [resolve_eq_filterMap, List.mem_filterMap]
  constructor
  · rintro ⟨a, ha, hfa⟩
    obtain ⟨r, hr, heq⟩ := Option.map_eq_some'.mp hfa
    cases heq
    exact ⟨ha, r, hr, rfl⟩
  · rintro ⟨he, r, hr, rfl⟩
    refine ⟨e, he, ?_⟩
    rw [hr]
    rfl

/-- Witness for the chunk-bound part of Claim C5: the single chunk produced
for a one-element input respects the 500 bound. -/
theorem resolveStationIds_spec_witness : (["A"] : List String).length ≤ 500 :=
  (resolveStationIds_spec emptyStationDb ["A"]).1 ["A"] (by simp [chunked])

-- ---------------------------------------------------------------------------
-- Station upsert helper lemmas (Claims C4 and C10)
-- ---------------------------------------------------------------------------

theorem filter_map_comm (pred : StationRow → Bool) (g : StationRow → StationRow) :
    ∀ rows : List StationRow, (∀ x ∈ rows, pred (g x) = pred x) →
      (rows.map g).filter pred = (rows.filter pred).map g := by
  intro rows
  induction rows with
  | nil => intro _; rfl
  | cons x t ih =>
    intro hp
    simp only [List.map_cons, List.filter_cons]
    rw [hp x (by simp)]
    cases h : pred x <;> simp [h, ih (fun y hy => hp y (by simp [hy]))]

theorem map_id_of_mem {g : StationRow → StationRow} :
    ∀ l : List StationRow, (∀ x ∈ l, g x = x) → l.map g = l := by
  intro l
  induction l with
  | nil => intro _; rfl
  | cons x t ih =>
    intro h
    simp only [List.map_cons]
    rw [h x (by simp), ih (fun y hy => h y (by simp [hy]))]

theorem rows_id_unique {rows : List StationRow}
    (hp : rows.Pairwise (fun a b => a.id ≠ b.id)) {x y : StationRow}
    (hx : x ∈ rows) (hy : y ∈ rows) (hid : x.id = y.id) : x = y := by
  by_contra hne
  have hsym : Symmetric (fun (a b : StationRow) => a.id ≠ b.id) := by
    intro a b h hba
    exact h hba.symm
  exact List.Pairwise.forall hsym hp hx hy hne hid

theorem find_ext_eq {db : StationDb} {e : String} {r : StationRow}
    (hf : findByExternalId db e = some r) : r.data.externalId = e := by
  have := List.find?_some hf
  simpa using this

theorem find_mem {db : StationDb} {e : String} {r : StationRow}
    (hf : findByExternalId db e = some r) : r ∈ db.rows :=
  List.mem_of_find?_eq_some hf

theorem patch_ext_pointwise {db : StationDb} {args : StationData} {now : Int} {r : StationRow}
    (h : db.WF) (hf : findByExternalId db args.externalId = some r) :
    ∀ x ∈ db.rows,
      (if x.id = r.id then StationRow.mk x.id args now else x).data.externalId =
        x.data.externalId := by
  intro x hx
  by_cases hxr : x.id = r.id
  · have hxeq : x = r := rows_id_unique h.2.1 hx (find_mem hf) hxr
    subst hxeq
    rw [if_pos rfl]
    exact (find_ext_eq hf).symm
  · rw [if_neg hxr]

theorem patch_id_pointwise (args : StationData) (now : Int) (i : Nat) :
    ∀ x : StationRow, (if x.id = i then StationRow.mk x.id args now else x).id = x.id := by
  intro x
  by_cases hxr : x.id = i <;> simp [hxr]

theorem upsertStep_WF (db : StationDb) (p : StationData × Int) (h : db.WF) :
    (upsertStep db p).WF := by
  obtain ⟨hext, hid, hbound⟩ := h
  rcases hf : findByExternalId db p.1.externalId with _ | r
  · simp only [upsertStep, upsertStation, hf, insertRow]
    refine ⟨?_, ?_, ?_⟩
    · rw [List.pairwise_append]
      refine ⟨hext, by simp, ?_⟩
      intro a ha b hb
      simp only [List.mem_singleton] at hb
      subst hb
      have := List.find?_eq_none.mp hf a ha
      simpa using this
    · rw [List.pairwise_append]
      refine ⟨hid, by simp, ?_⟩
      intro a ha b hb
      simp only [List.mem_singleton] at hb
      subst hb
      have := hbound a ha
      simp only []
      omega
    · intro x hx
      rcases List.mem_append.mp hx with hmem | hmem
      · have := hbound x hmem
        simp only [List.length_append]
        omega
      · simp only [List.mem_singleton] at hmem
        subst hmem
        simp
  · simp only [upsertStep, upsertStation, hf, patchRow]
    refine ⟨?_, ?_, ?_⟩
    · rw [List.pairwise_map]
      refine List.Pairwise.imp_of_mem ?_ hext
      intro a b ha hb hne
      rw [patch_ext_pointwise ⟨hext, hid, hbound⟩ hf a ha,
        patch_ext_pointwise ⟨hext, hid, hbound⟩ hf b hb]
      exact hne
    · rw [List.pairwise_map]
      refine List.Pairwise.imp_of_mem ?_ hid
      intro a b _ _ hne
      rw [patch_id_pointwise p.1 p.2 r.id a, patch_id_pointwise p.1 p.2 r.id b]
      exact hne
    · intro x hx
      obtain ⟨y, hy, rfl⟩ := List.mem_map.mp hx
      rw [patch_id_pointwise p.1 p.2 r.id y]
      exact hbound y hy

theorem filter_of_find {e : String} :
    ∀ {rows : List StationRow} {r : StationRow},
      rows.Pairwise (fun a b => a.data.externalId ≠ b.data.externalId) →
      rows.find? (fun x => x.data.externalId == e) = some r →
      rows.filter (fun x => x.data.externalId == e) = [r] := by
  intro rows
  induction rows with
  | nil => intro r _ hf; cases hf
  | cons x t ih =>
    intro r hp hf
    rw [List.find?_cons] at hf
    by_cases hx : x.data.externalId = e
    · have hpx : (x.data.externalId == e) = true := by simp [hx]
      rw [hpx] at hf
      simp only at hf
      have hxr : x = r := by injection hf
      subst hxr
      simp only [List.filter_cons, hpx, if_true]
      rw [List.filter_eq_nil_iff.mpr ?_]
      intro a ha
      have hxa := (List.pairwise_cons.mp hp).1 a ha
      rw [hx] at hxa
      simp only [beq_iff_eq]
      exact fun hh => hxa hh.symm
    · have hpx : (x.data.externalId == e) = false := by simp [hx]
      rw [hpx] at hf
      simp only at hf
      simp only [List.filter_cons, hpx, Bool.false_eq_true, if_false]
      exact ih (List.pairwise_cons.mp hp).2 hf

theorem rowsFor_upsertStep_hit (db : StationDb) (p : StationData × Int) (h : db.WF) :
    ∃ i, rowsFor (upsertStep db p) p.1.externalId = [StationRow.mk i p.1 p.2] := by
  rcases hf : findByExternalId db p.1.externalId with _ | r
  · refine ⟨db.nextId, ?_⟩
    simp only [upsertStep, upsertStation, hf, insertRow, rowsFor]
    rw [List.filter_append]
    rw [List.filter_eq_nil_iff.mpr (by
      intro a ha
      have := List.find?_eq_none.mp hf a ha
      simpa using this)]
    simp
  · refine ⟨r.id, ?_⟩
    simp only [upsertStep, upsertStation, hf, patchRow, rowsFor]
    rw [filter_map_comm _ _ db.rows
      (fun x hx => by rw [patch_ext_pointwise h hf x hx])]
    rw [filter_of_find h.1 hf]
    simp

theorem rowsFor_upsertStep_miss (db : StationDb) (p : StationData × Int) (e : String)
    (h : db.WF) (hne : p.1.externalId ≠ e) :
    rowsFor (upsertStep db p) e = rowsFor db e := by
  rcases hf : findByExternalId db p.1.externalId with _ | r
  · simp only [upsertStep, upsertStation, hf, insertRow, rowsFor]
    rw [List.filter_append]
    have hnew : ((StationRow.mk db.nextId p.1 p.2).data.externalId == e) = false := by
      simp [hne]
    simp [hnew]
  · simp only [upsertStep, upsertStation, hf, patchRow, rowsFor]
    rw [filter_map_comm _ _ db.rows
      (fun x hx => by rw [patch_ext_pointwise h hf x hx])]
    apply map_id_of_mem
    intro x hx
    have hxm := List.mem_of_mem_filter hx
    have hxe : x.data.externalId = e := by simpa using List.of_mem_filter hx
    by_cases hxr : x.id = r.id
    · have hxeq : x = r := rows_id_unique h.2.1 hxm (find_mem hf) hxr
      subst hxeq
      exact absurd ((find_ext_eq hf).symm.trans hxe) hne
    · rw [if_neg hxr]

theorem applyPairs_cons (db : StationDb) (p : StationData × Int) (ps : List (StationData × Int)) :
    applyPairs db (p :: ps) = applyPairs (upsertStep db p) ps := rfl

theorem applyPairs_append (db : StationDb) (xs ys : List (StationData × Int)) :
    applyPairs db (xs ++ ys) = applyPairs (applyPairs db xs) ys := by
  simp [applyPairs, List.foldl_append]

theorem applyPairs_WF : ∀ (ps : List (StationData × Int)) (db : StationDb),
    db.WF → (applyPairs db ps).WF := by
  intro ps
  induction ps with
  | nil => intro db h; exact h
  | cons p rest ih =>
    intro db h
    rw [applyPairs_cons]
    exact ih _ (upsertStep_WF db p h)

theorem applyPairs_rowsFor (e : String) :
    ∀ (ps : List (StationData × Int)) (db : StationDb), db.WF →
      (lastTouch e ps = none → rowsFor (applyPairs db ps) e = rowsFor db e) ∧
      (∀ a t, lastTouch e ps = some (a, t) →
         ∃ i, rowsFor (applyPairs db ps) e = [StationRow.mk i a t]) := by
  intro ps
  induction ps with
  | nil =>
    intro db _
    exact ⟨fun _ => rfl, fun a t h => by cases h⟩
  | cons p rest ih =>
    intro db hWF
    have ihr := ih (upsertStep db p) (upsertStep_WF db p hWF)
    constructor
    · intro hnone
      simp only [lastTouch] at hnone
      rcases hlt : lastTouch e rest with _ | q
      · rw [hlt] at hnone
        simp only at hnone
        by_cases hpe : p.1.externalId = e
        · rw [if_pos hpe] at hnone; cases hnone
        · rw [applyPairs_cons, ihr.1 hlt]
          exact rowsFor_upsertStep_miss db p e hWF hpe
      · rw [hlt] at hnone
        simp only at hnone
        cases hnone
    · intro a t hsome
      simp only [lastTouch] at hsome
      rcases hlt : lastTouch e rest with _ | q
      · rw [hlt] at hsome
        simp only at hsome
        by_cases hpe : p.1.externalId = e
        · rw [if_pos hpe] at hsome
          have hp : p = (a, t) := by injection hsome
          subst hp
          rw [applyPairs_cons, ihr.1 hlt, ← hpe]
          exact rowsFor_upsertStep_hit db (a, t) hWF
        · rw [if_neg hpe] at hsome; cases hsome
      · rw [hlt] at hsome
        simp only at hsome
        have hq : q = (a, t) := by injection hsome
        subst hq
        rw [applyPairs_cons]
        exact ihr.2 a t hlt

theorem batchStep_fst (now : Int) (acc : StationDb × List Nat) (s : StationData) :
    (batchStep now acc s).1 = upsertStep acc.1 (s, now) := by
  rcases hf : findByExternalId acc.1 s.externalId with _ | r <;>
    simp [batchStep, upsertStep, upsertStation, hf]

theorem batch_fst (now : Int) :
    ∀ (l : List StationData) (db : StationDb) (acc : List Nat),
      (l.foldl (batchStep now) (db, acc)).1 = applyPairs db (l.map (fun s => (s, now))) := by
  intro l
  induction l with
  | nil => intro db acc; rfl
  | cons s l ih =>
    intro db acc
    rw [List.foldl_cons, List.map_cons, applyPairs_cons]
    have hstep : batchStep now (db, acc) s =
        ((batchStep now (db, acc) s).1, (batchStep now (db, acc) s).2) := rfl
    rw [hstep, batchStep_fst]
    exact ih _ _

theorem runCalls_eq_applyPairs :
    ∀ (calls : List UpsertCall) (db : StationDb),
      runCalls db calls = applyPairs db (flattenCalls calls) := by
  intro calls
  induction calls with
  | nil => intro db; rfl
  | cons c rest ih =>
    intro db
    cases c with
    | one a t =>
      simp only [runCalls, applyCall, flattenCalls]
      rw [applyPairs_cons]
      exact ih _
    | many l t =>
      simp only [runCalls, applyCall, flattenCalls]
      rw [applyPairs_append]
      rw [show applyPairs db (l.map (fun s => (s, t))) = (batchUpsertStations db l t).1 from
        (batch_fst t l db []).symm]
      exact ih _

/-- Claim C4: starting from a well-formed store, after any sequence of
upsertStation / batchUpsertStations calls the store is still well-formed
(in particular it has at most one record per externalId), and for every
externalId touched by some call there is exactly one stored record, whose
descriptive fields and lastSyncedAt are those of the last call that targeted
that externalId. -/
theorem upsert_sequence_unique :
    ∀ (db : StationDb) (calls : List UpsertCall), db.WF →
      (runCalls db calls).WF ∧
      ∀ e a t, lastTouch e (flattenCalls calls) = some (a, t) →
        ∃ i, rowsFor (runCalls db calls) e = [StationRow.mk i a t] := by
  intro db calls hWF
  rw [runCalls_eq_applyPairs]
  exact ⟨applyPairs_WF _ db hWF,
    fun e a t h => (applyPairs_rowsFor e (flattenCalls calls) db hWF).2 a t h⟩

theorem emptyStationDb_WF : emptyStationDb.WF :=
  ⟨List.Pairwise.nil, List.Pairwise.nil, by simp [emptyStationDb]⟩

/-- Witness for Claim C4: upserting externalId X twice leaves exactly one
record, carrying the second call's fields and timestamp. -/
theorem upsert_sequence_unique_witness :
    (runCalls emptyStationDb demoCalls).WF ∧
    ∃ i, rowsFor (runCalls emptyStationDb demoCalls) "X" = [StationRow.mk i demoStationB 9] :=
  ⟨(upsert_sequence_unique emptyStationDb demoCalls emptyStationDb_WF).1,
   (upsert_sequence_unique emptyStationDb demoCalls emptyStationDb_WF).2 "X" demoStationB 9
     (by rfl)⟩

-- ---------------------------------------------------------------------------
-- Internal-key stability lemmas (Claim C10)
-- ---------------------------------------------------------------------------

theorem patch_ids (db : StationDb) (i : Nat) (args : StationData) (now : Int) :
    (patchRow db i args now).rows.map StationRow.id = db.rows.map StationRow.id := by
  simp only [patchRow, List.map_map]
  apply List.map_congr_left
  intro x _
  simp only [Function.comp]
  exact patch_id_pointwise args now i x

theorem patch_exts (db : StationDb) (s : StationData) (now : Int) (r : StationRow)
    (h : db.WF) (hf : findByExternalId db s.externalId = some r) :
    (patchRow db r.id s now).rows.map (fun x => x.data.externalId) =
      db.rows.map (fun x => x.data.externalId) := by
  simp only [patchRow, List.map_map]
  apply List.map_congr_left
  intro x hx
  simp only [Function.comp]
  exact patch_ext_pointwise h hf x hx

theorem find_isSome_of_ext_eq :
    ∀ (rows1 rows : List StationRow),
      rows1.map (fun x => x.data.externalId) = rows.map (fun x => x.data.externalId) →
      ∀ e, (rows1.find? (fun x => x.data.externalId == e)).isSome =
           (rows.find? (fun x => x.data.externalId == e)).isSome := by
  intro rows1
  induction rows1 with
  | nil =>
    intro rows h e
    have hnil : rows = [] := by
      cases rows with
      | nil => rfl
      | cons y ys => simp at h
    subst hnil
    rfl
  | cons x t ih =>
    intro rows h e
    cases rows with
    | nil => simp at h
    | cons y ys =>
      simp only [List.map_cons, List.cons.injEq] at h
      obtain ⟨hxy, hts⟩ := h
      rw [List.find?_cons, List.find?_cons, hxy]
      cases hp : (y.data.externalId == e) with
      | false =>
        simp only [hp]
        exact ih ys hts e
      | true =>
        simp only [hp]
        rfl

theorem batch_ids_general (now : Int) :
    ∀ (l : List StationData) (db : StationDb) (acc : List Nat), db.WF →
      (∀ s ∈ l, (findByExternalId db s.externalId).isSome = true) →
      (l.foldl (batchStep now) (db, acc)).1.rows.map StationRow.id =
        db.rows.map StationRow.id ∧
      ∀ i ∈ (l.foldl (batchStep now) (db, acc)).2, i ∈ acc ∨ i ∈ db.rows.map StationRow.id := by
  intro l
  induction l with
  | nil =>
    intro db acc _ _
    exact ⟨rfl, fun i hi => Or.inl hi⟩
  | cons s l ih =>
    intro db acc hWF hpres
    have hs := hpres s (by simp)
    rcases hf : findByExternalId db s.externalId with _ | r
    · rw [hf] at hs
      cases hs
    · rw [List.foldl_cons]
      have hstep : batchStep now (db, acc) s = (patchRow db r.id s now, acc ++ [r.id]) := by
        simp [batchStep, hf]
      rw [hstep]
      have hpe : patchRow db r.id s now = upsertStep db (s, now) := by
        simp [upsertStep, upsertStation, hf]
      have hWF2 : (patchRow db r.id s now).WF := by
        rw [hpe]
        exact upsertStep_WF db (s, now) hWF
      have hids := patch_ids db r.id s now
      have hexts := patch_exts db s now r hWF hf
      have hpres2 : ∀ s2 ∈ l, (findByExternalId (patchRow db r.id s now) s2.externalId).isSome = true := by
        intro s2 hs2
        have hiso := find_isSome_of_ext_eq (patchRow db r.id s now).rows db.rows hexts s2.externalId
        simp only [findByExternalId]
        rw [hiso]
        exact hpres s2 (by simp [hs2])
      obtain ⟨ih1, ih2⟩ := ih (patchRow db r.id s now) (acc ++ [r.id]) hWF2 hpres2
      refine ⟨by rw [ih1, hids], ?_⟩
      intro i hi
      rcases ih2 i hi with hin | hin
      · rcases List.mem_append.mp hin with h1 | h1
        · exact Or.inl h1
        · simp only [List.mem_singleton] at h1
          subst h1
          exact Or.inr (List.mem_map.mpr ⟨r, find_mem hf, rfl⟩)
      · rw [hids] at hin
        exact Or.inr hin

/-- Claim C10: once an externalId exists in the store, upsertStation patches
the existing record in place and returns that record's internal id, leaving
the list of internal ids unchanged; batchUpsertStations over already-known
externalIds likewise preserves the id list and only ever returns ids that
already existed, so price observations referencing those ids stay attached. -/
theorem station_key_stable :
    (∀ (db : StationDb) (a : StationData) (now : Int) (r : StationRow), db.WF →
       findByExternalId db a.externalId = some r →
       (upsertStation db a now).2 = r.id ∧
       (upsertStation db a now).1.rows.map StationRow.id = db.rows.map StationRow.id) ∧
    (∀ (db : StationDb) (l : List StationData) (now : Int), db.WF →
       (∀ s ∈ l, (findByExternalId db s.externalId).isSome = true) →
       (batchUpsertStations db l now).1.rows.map StationRow.id = db.rows.map StationRow.id ∧
       ∀ i ∈ (batchUpsertStations db l now).2, i ∈ db.rows.map StationRow.id) := by
  constructor
  · intro db a now r hWF hf
    simp only [upsertStation, hf]
    exact ⟨by trivial, patch_ids db r.id a now⟩
  · intro db l now hWF hpres
    obtain ⟨h1, h2⟩ := batch_ids_general now l db [] hWF hpres
    refine ⟨h1, ?_⟩
    intro i hi
    rcases h2 i hi with hin | hin
    · cases hin
    · exact hin

/-- Witness for Claim C10: re-upserting the known externalId X returns the
existing internal id and preserves the stored id list. -/
theorem station_key_stable_witness :
    ((upsertStation (runCalls emptyStationDb demoCalls) demoStationB 11).2 = 0 ∧
       (upsertStation (runCalls emptyStationDb demoCalls) demoStationB 11).1.rows.map
         StationRow.id = (runCalls emptyStationDb demoCalls).rows.map StationRow.id) := by
  have hWF := (upsert_sequence_unique emptyStationDb demoCalls emptyStationDb_WF).1
  have h := station_key_stable.1 (runCalls emptyStationDb demoCalls) demoStationB 11
    (StationRow.mk 0 demoStationB 9) hWF (by rfl)
  exact ⟨h.1, h.2⟩

-- ---------------------------------------------------------------------------
-- Price reconciler lemmas (Claim C1)
-- ---------------------------------------------------------------------------

theorem mrFold_none (sid : Nat) (ft : String) :
    ∀ (rows : List PriceObs) (acc : Option PriceObs),
      rows.foldl (mrStep sid ft) acc = none ↔
        acc = none ∧ ∀ r ∈ rows, ¬(r.stationId = sid ∧ r.fuelType = ft) := by
  intro rows
  induction rows with
  | nil => intro acc; simp
  | cons r t ih =>
    intro acc
    rw [List.foldl_cons, ih]
    constructor
    · rintro ⟨hstep, hrest⟩
      unfold mrStep at hstep
      split_ifs at hstep with hm
      · cases acc with
        | none => cases hstep
        | some b =>
          simp only at hstep
          split_ifs at hstep
      · refine ⟨hstep, ?_⟩
        intro x hx
        rcases List.mem_cons.mp hx with rfl | hxm
        · exact hm
        · exact hrest x hxm
    · rintro ⟨hacc, hall⟩
      subst hacc
      refine ⟨?_, fun x hx => hall x (by simp [hx])⟩
      unfold mrStep
      rw [if_neg (hall r (by simp))]

theorem mrFold_some (sid : Nat) (ft : String) :
    ∀ (rows : List PriceObs) (acc : Option PriceObs) (ex : PriceObs),
      rows.foldl (mrStep sid ft) acc = some ex →
      (acc = some ex ∨ (ex ∈ rows ∧ ex.stationId = sid ∧ ex.fuelType = ft)) ∧
      (∀ r ∈ rows, r.stationId = sid → r.fuelType = ft → r.recordedAt ≤ ex.recordedAt) ∧
      (∀ b, acc = some b → b.recordedAt ≤ ex.recordedAt) := by
  intro rows
  induction rows with
  | nil =>
    intro acc ex h
    simp only [List.foldl_nil] at h
    refine ⟨Or.inl h, by simp, ?_⟩
    intro b hb
    rw [hb] at h
    have hbe : b = ex := by injection h
    rw [hbe]
  | cons r t ih =>
    intro acc ex h
    rw [List.foldl_cons] at h
    obtain ⟨ho, hbound, hacc⟩ := ih (mrStep sid ft acc r) ex h
    by_cases hm : r.stationId = sid ∧ r.fuelType = ft
    · cases hacccase : acc with
      | none =>
        have hstep : mrStep sid ft acc r = some r := by
          rw [hacccase]
          unfold mrStep
          rw [if_pos hm]
        refine ⟨?_, ?_, ?_⟩
        · rcases ho with h1 | h1
          · rw [hstep] at h1
            have hre : r = ex := by injection h1
            subst hre
            exact Or.inr ⟨by simp, hm.1, hm.2⟩
          · exact Or.inr ⟨List.mem_cons_of_mem r h1.1, h1.2⟩
        · intro x hx hx1 hx2
          rcases List.mem_cons.mp hx with rfl | hxm
          · exact hacc x hstep
          · exact hbound x hxm hx1 hx2
        · intro b hb
          cases hb
      | some b0 =>
        by_cases hcmp : b0.recordedAt ≤ r.recordedAt
        · have hstep : mrStep sid ft acc r = some r := by
            rw [hacccase]
            simp [mrStep, hm, hcmp]
          refine ⟨?_, ?_, ?_⟩
          · rcases ho with h1 | h1
            · rw [hstep] at h1
              have hre : r = ex := by injection h1
              subst hre
              exact Or.inr ⟨by simp, hm.1, hm.2⟩
            · exact Or.inr ⟨List.mem_cons_of_mem r h1.1, h1.2⟩
          · intro x hx hx1 hx2
            rcases List.mem_cons.mp hx with rfl | hxm
            · exact hacc x hstep
            · exact hbound x hxm hx1 hx2
          · intro b hb
            have hbb : b0 = b := by injection hb
            subst hbb
            exact le_trans hcmp (hacc r hstep)
        · have hstep : mrStep sid ft acc r = some b0 := by
            rw [hacccase]
            simp [mrStep, hm, hcmp]
          refine ⟨?_, ?_, ?_⟩
          · rcases ho with h1 | h1
            · rw [hstep] at h1
              have hbe : b0 = ex := by injection h1
              subst hbe
              exact Or.inl rfl
            · exact Or.inr ⟨List.mem_cons_of_mem r h1.1, h1.2⟩
          · intro x hx hx1 hx2
            rcases List.mem_cons.mp hx with rfl | hxm
            · have hb0 := hacc b0 hstep
              omega
            · exact hbound x hxm hx1 hx2
          · intro b hb
            have hbb : b0 = b := by injection hb
            subst hbb
            exact hacc b0 hstep
    · have hstep : mrStep sid ft acc r = acc := by simp [mrStep, hm]
      rw [hstep] at ho
      refine ⟨?_, ?_, ?_⟩
      · rcases ho with h1 | h1
        · exact Or.inl h1
        · exact Or.inr ⟨List.mem_cons_of_mem r h1.1, h1.2⟩
      · intro x hx hx1 hx2
        rcases List.mem_cons.mp hx with rfl | hxm
        · exact absurd ⟨hx1, hx2⟩ hm
        · exact hbound x hxm hx1 hx2
      · intro b hb
        exact hacc b (hstep.trans hb)

theorem mostRecentFor_spec (rows : List PriceObs) (sid : Nat) (ft : String) :
    (mostRecentFor rows sid ft = none ↔
       ∀ r ∈ rows, ¬(r.stationId = sid ∧ r.fuelType = ft)) ∧
    (∀ ex, mostRecentFor rows sid ft = some ex →
       ex ∈ rows ∧ ex.stationId = sid ∧ ex.fuelType = ft ∧
       ∀ r ∈ rows, r.stationId = sid → r.fuelType = ft → r.recordedAt ≤ ex.recordedAt) := by
  constructor
  · unfold mostRecentFor
    rw [mrFold_none]
    simp
  · intro ex h
    unfold mostRecentFor at h
    obtain ⟨ho, hbound, _⟩ := mrFold_some sid ft rows none ex h
    rcases ho with h1 | h1
    · cases h1
    · exact ⟨h1.1, h1.2.1, h1.2.2, hbound⟩

theorem addPrice_step_eq (acc : PriceDb × List Nat) (it : PriceArgs × Int) :
    addStep acc it =
      ((addPrice acc.1 it.1.stationId it.1.fuelType it.1.price it.2 it.1.sourceTimestamp).1,
       acc.2 ++
         [(addPrice acc.1 it.1.stationId it.1.fuelType it.1.price it.2 it.1.sourceTimestamp).2]) := by
  rcases hm : mostRecentFor acc.1.rows it.1.stationId it.1.fuelType with _ | ex
  · simp [addStep, addPrice, hm]
  · simp only [addStep, addPrice, hm]
    split_ifs <;> rfl

/-- Claim C1: addPrice inserts a new observation recorded at ingestion time if
and only if no prior observation exists for the (stationId, fuelType) pair, or
the candidate price differs from the most recent prior price, or more than one
hour (3600000 ms) elapsed since the prior recordedAt; otherwise it performs no
write and returns the existing most-recent observation's id.  mostRecentFor is
the most recent prior observation (a matching stored row maximizing
recordedAt), and batchAddPrices performs exactly this decision sequentially
for each element. -/
theorem addPrice_reconciles :
    (∀ (db : PriceDb) (sid : Nat) (ft : String) (p : ℚ) (now : Int) (ts : String),
      (mostRecentFor db.rows sid ft = none →
         addPrice db sid ft p now ts =
           (⟨db.rows ++ [⟨db.nextId, sid, ft, p, now, ts⟩], db.nextId + 1⟩, db.nextId)) ∧
      (∀ ex, mostRecentFor db.rows sid ft = some ex →
         ((ex.price ≠ p ∨ now - ex.recordedAt > 60 * 60 * 1000) →
            addPrice db sid ft p now ts =
              (⟨db.rows ++ [⟨db.nextId, sid, ft, p, now, ts⟩], db.nextId + 1⟩, db.nextId)) ∧
         (ex.price = p → now - ex.recordedAt ≤ 60 * 60 * 1000 →
            addPrice db sid ft p now ts = (db, ex.id)))) ∧
    (∀ (rows : List PriceObs) (sid : Nat) (ft : String),
      (mostRecentFor rows sid ft = none ↔
         ∀ r ∈ rows, ¬(r.stationId = sid ∧ r.fuelType = ft)) ∧
      (∀ ex, mostRecentFor rows sid ft = some ex →
         ex ∈ rows ∧ ex.stationId = sid ∧ ex.fuelType = ft ∧
         ∀ r ∈ rows, r.stationId = sid → r.fuelType = ft → r.recordedAt ≤ ex.recordedAt)) ∧
    (∀ (db : PriceDb) (items : List (PriceArgs × Int)),
      batchAddPrices db items =
        items.foldl
          (fun acc it =>
            ((addPrice acc.1 it.1.stationId it.1.fuelType it.1.price it.2
                it.1.sourceTimestamp).1,
             acc.2 ++
               [(addPrice acc.1 it.1.stationId it.1.fuelType it.1.price it.2
                   it.1.sourceTimestamp).2]))
          (db, [])) := by
  refine ⟨?_, mostRecentFor_spec, ?_⟩
  · intro db sid ft p now ts
    constructor
    · intro h
      simp [addPrice, h]
    · intro ex h
      constructor
      · intro hc
        simp only [addPrice, h]
        rw [if_pos hc]
      · intro h1 h2
        have hc : ¬(ex.price ≠ p ∨ now - ex.recordedAt > 60 * 60 * 1000) := by
          rw [not_or]
          exact ⟨fun hh => hh h1, by omega⟩
        simp only [addPrice, h]
        rw [if_neg hc]
  · intro db items
    unfold batchAddPrices
    rw [show addStep =
        (fun (acc : PriceDb × List Nat) (it : PriceArgs × Int) =>
          ((addPrice acc.1 it.1.stationId it.1.fuelType it.1.price it.2
              it.1.sourceTimestamp).1,
           acc.2 ++
             [(addPrice acc.1 it.1.stationId it.1.fuelType it.1.price it.2
                 it.1.sourceTimestamp).2])) from
      funext fun acc => funext fun it => addPrice_step_eq acc it]

/-- Witness for Claim C1: an identical price arriving 1 second after the prior
observation performs no write and returns the existing observation's id. -/
theorem addPrice_reconciles_witness :
    addPrice demoPriceDb 1 "E10" 126 2000 "t1" = (demoPriceDb, 0) :=
  ((addPrice_reconciles.1 demoPriceDb 1 "E10" 126 2000 "t1").2 demoObs (by rfl)).2
    (by rfl) (by decide)

-- ---------------------------------------------------------------------------
-- Orchestrator theorems (Claim C7)
-- ---------------------------------------------------------------------------

/-- Claim C7: for both sync entry points, any exception raised inside the try
body (token acquisition, a failed fetch, an invalid response shape) is caught:
the SyncRun is patched to status failed carrying the exception message and a
structured result with success false and the same message is returned; on the
success path the run is completed and the result carries success true with the
processed counts.  The models are total functions into plain result records,
so no exception escapes the orchestrator boundary. -/
theorem sync_orchestrator_catches :
    (∀ (env : StationsEnv) (m : String), syncStationsBody env = .error m →
       syncStationsModel env = (⟨false, none, some m⟩, failRun (startRun "stations") m)) ∧
    (∀ (env : StationsEnv) (n : Nat), syncStationsBody env = .ok n →
       syncStationsModel env = (⟨true, some n, none⟩, completeRun (startRun "stations") n 0)) ∧
    (∀ (env : StationsEnv) (m : String), env.tokenResult = .error m →
       syncStationsBody env = .error m) ∧
    (∀ (env : StationsEnv) (tk m : String), env.tokenResult = .ok tk →
       fetchLoopE stationsShapeErr env.stationPages = .error m →
       syncStationsBody env = .error m) ∧
    (∀ (env : StationsEnv) (tk : String) (raw : List Nat), env.tokenResult = .ok tk →
       fetchLoopE stationsShapeErr env.stationPages = .ok raw →
       syncStationsBody env = .ok raw.length) ∧
    (∀ (env : PricesEnv) (m : String), syncPricesBody env = .error m →
       syncPricesModel env = (⟨false, none, none, some m⟩, failRun (startRun "prices") m)) ∧
    (∀ (env : PricesEnv) (c : Nat × Nat), syncPricesBody env = .ok c →
       syncPricesModel env =
         (⟨true, some c.1, some c.2, none⟩, completeRun (startRun "prices") 0 c.1)) ∧
    (∀ env : StationsEnv,
       ((syncStationsModel env).1.success = true ∧
          (syncStationsModel env).2.status = "completed" ∧
          (syncStationsModel env).1.errorMsg = none) ∨
       ((syncStationsModel env).1.success = false ∧
          (syncStationsModel env).2.status = "failed" ∧
          ∃ m, (syncStationsModel env).1.errorMsg = some m ∧
            (syncStationsModel env).2.errorMessage = some m)) ∧
    (∀ env : PricesEnv,
       ((syncPricesModel env).1.success = true ∧
          (syncPricesModel env).2.status = "completed" ∧
          (syncPricesModel env).1.errorMsg = none) ∨
       ((syncPricesModel env).1.success = false ∧
          (syncPricesModel env).2.status = "failed" ∧
          ∃ m, (syncPricesModel env).1.errorMsg = some m ∧
            (syncPricesModel env).2.errorMessage = some m)) := by
  refine ⟨?_, ?_, ?_, ?_, ?_, ?_, ?_, ?_, ?_⟩
  · intro env m h
    simp only [syncStationsModel, h]
  · intro env n h
    simp only [syncStationsModel, h]
  · intro env m h
    simp only [syncStationsBody, h]
  · intro env tk m ht hf
    simp only [syncStationsBody, ht, hf]
  · intro env tk raw ht hf
    simp only [syncStationsBody, ht, hf]
  · intro env m h
    simp only [syncPricesModel, h]
  · intro env c h
    simp only [syncPricesModel, h]
  · intro env
    rcases hb : syncStationsBody env with m | n
    · right
      simp [syncStationsModel, hb, failRun, completeRun, startRun]
    · left
      simp [syncStationsModel, hb, failRun, completeRun, startRun]
  · intro env
    rcases hb : syncPricesBody env with m | c
    · right
      simp [syncPricesModel, hb, failRun, completeRun, startRun]
    · left
      simp [syncPricesModel, hb, failRun, completeRun, startRun]

/-- Witness for Claim C7: an environment whose token acquisition throws yields
a failed run and a structured failure result carrying the message. -/
theorem sync_orchestrator_catches_witness :
    syncStationsModel demoFailEnv =
      (⟨false, none, some "boom"⟩, failRun (startRun "stations") "boom") :=
  sync_orchestrator_catches.1 demoFailEnv "boom" (by rfl)
